import Mathlib

/-!
Verification of the NoIFGo rewrite engine (`src/main.go`) against its
natural-language specification.

The Go source is shallowly embedded: a source file is modelled as the list
of lines `bufio.ScanLines` produces, each carrying its `advance` (the byte
length of the line including its terminator); the driver's filesystem
effects are modelled as explicit event traces; the external `guru`
collaborator's output is modelled as the list of output lines handed to the
parsing loops.  Go `int` values that can go negative are `Int`.
-/

namespace Noifgo

/-- One scanned line of a file: `text` is the token `bufio.ScanLines`
returns (line terminator stripped) and `adv` is the scanner's advance for
it, i.e. the byte length of the line including its terminator. -/
structure ScanLine where
  text : String
  adv : Nat
deriving DecidableEq, Repr

/-- A source file as the scanner sees it: the list of its scanned lines. -/
abbrev ScanFile := List ScanLine

/-- The loop of `toPos` (src/main.go:417-445).  `pos` has already
accumulated the advances of all scanned lines (the split function adds
each advance as the line is scanned).  While `curRow ≠ row` the loop keeps
scanning; at `curRow = row` it subtracts the last advance, adds `col` and
stops; if the scanner runs out first, the loop falls through with `pos`
equal to the whole file's byte length.  The Go function finally returns
`pos - 1`. -/
def toPosLoop (row col : Nat) : ScanFile → Nat → Int → Int
  | [], _, pos => pos - 1
  | l :: rest, curRow, pos =>
    if curRow ≠ row then toPosLoop row col rest (curRow + 1) (pos + l.adv)
    else ((pos + l.adv) - l.adv + col) - 1

/-- `toPos` (src/main.go:417-445): converts a 1-based (row, col) in the
file to a byte offset.  The only error return in the source is a failed
`ioutil.ReadFile`; the file content is an argument here, so the embedded
function always returns `.ok`. -/
def toPos (f : ScanFile) (row col : Nat) : Except String Int :=
  .ok (toPosLoop row col f 1 0)

/-- Sum of the byte lengths (terminators included) of all lines strictly
before `row` (1-based). -/
def advBefore (f : ScanFile) (row : Nat) : Nat :=
  ((f.take (row - 1)).map ScanLine.adv).sum

lemma toPosLoop_hit (f : ScanFile) : ∀ (d col curRow : Nat) (pos : Int),
    d < f.length →
    toPosLoop (curRow + d) col f curRow pos
      = pos + ((f.take d).map ScanLine.adv).sum + col - 1 := by
  induction f with
  | nil => intro d col curRow pos h; simp at h
  | cons l rest ih =>
    intro d col curRow pos h
    cases d with
    | zero =>
      simp [toPosLoop]
    | succ d' =>
      have hne : curRow ≠ curRow + (d' + 1) := by omega
      have : toPosLoop (curRow + (d' + 1)) col (l :: rest) curRow pos
          = toPosLoop (curRow + (d' + 1)) col rest (curRow + 1) (pos + l.adv) := by
        simp [toPosLoop, hne]
      rw [this]
      have harr : curRow + (d' + 1) = (curRow + 1) + d' := by omega
      rw [harr, ih d' col (curRow + 1) (pos + l.adv) (by simpa using h)]
      simp [List.take_cons, List.sum_cons]
      ring

lemma toPosLoop_miss (f : ScanFile) : ∀ (row col curRow : Nat) (pos : Int),
    curRow + f.length ≤ row →
    toPosLoop row col f curRow pos = pos + ((f.map ScanLine.adv).sum : Int) - 1 := by
  induction f with
  | nil => intro row col curRow pos _; simp [toPosLoop]
  | cons l rest ih =>
    intro row col curRow pos h
    have hne : curRow ≠ row := by simp at h; omega
    have hrec : (curRow + 1) + rest.length ≤ row := by simp at h; omega
    simp only [toPosLoop, hne, ne_eq, not_false_iff, if_true, ite_true]
    rw [ih row col (curRow + 1) (pos + l.adv) hrec]
    simp
    ring

/-- C4: for every file and every 1-based (row, col) with row at most the
file's line count, `toPos` returns the sum of the byte lengths (line
terminators included) of all lines strictly before `row`, plus `col`,
minus 1, so that column 1 maps to the line's first byte (0-based). -/
theorem C4_toPos_offset_formula (f : ScanFile) (row col : Nat)
    (h1 : 1 ≤ row) (h2 : row ≤ f.length) :
    toPos f row col = .ok ((advBefore f row : Int) + col - 1) := by
  have h := toPosLoop_hit f (row - 1) col 1 0 (by omega)
  have hrow : 1 + (row - 1) = row := by omega
  rw [hrow] at h
  simp only [toPos, advBefore, h, zero_add]

/-- Witness for C4 at a concrete file of two lines of 3 bytes each:
row 2, column 2 lands at byte offset 4. -/
theorem C4_toPos_offset_formula_witness :
    toPos [⟨"ab", 3⟩, ⟨"cd", 3⟩] 2 2 = .ok 4 := by
  have h := C4_toPos_offset_formula [⟨"ab", 3⟩, ⟨"cd", 3⟩] 2 2
    (by norm_num) (by norm_num)
  simpa [advBefore] using h

/-- C5 counterexample: the claim says that for a row strictly greater than
the file's line count `toPos` fails with an error result; on the two-line
file below with row 3 the source instead falls through its scan loop and
returns the file's total byte length minus 1 as a successful offset. -/
theorem C5_toPos_row_overflow_counterexample :
    toPos [⟨"ab", 3⟩, ⟨"cd", 3⟩] 3 1 = .ok 5 := by
  rfl

/-- C5 amended: for every readable file and every row strictly greater
than the file's line count, `toPos` does not fail; it returns the file's
total byte length minus 1 (the column is ignored) as an `.ok` offset. -/
theorem C5_toPos_row_overflow_total (f : ScanFile) (row col : Nat)
    (h : f.length < row) :
    toPos f row col = .ok (((f.map ScanLine.adv).sum : Int) - 1) := by
  unfold toPos
  rw [toPosLoop_miss f row col 1 0 (by omega)]
  simp

/-- Witness for the amended C5: a two-line file (3 bytes per line) with
row 4 yields `.ok 5`. -/
theorem C5_toPos_row_overflow_total_witness :
    toPos [⟨"ab", 3⟩, ⟨"cd", 3⟩] 4 9 = .ok 5 := by
  have h := C5_toPos_row_overflow_total [⟨"ab", 3⟩, ⟨"cd", 3⟩] 4 9 (by norm_num)
  simpa using h

/-! ## Tag grammar parser: `shouldConvertTo` (src/main.go:349-400) -/

/-- Result of `shouldConvertTo`: a successful kind (`"p"` or `"v"`), a Go
error value, or a runtime panic (index out of range). -/
inductive ConvRes
  | ok (kind : String)
  | errMsg (msg : String)
  | panicked
deriving DecidableEq, Repr

/-- The opening curly brace character. -/
def curlyOpen : Char := Char.ofNat 123

/-- The closing curly brace character. -/
def curlyClose : Char := Char.ofNat 125

/-- `bytes.LastIndex` specialised to a one-byte separator: index of the
last occurrence of `c` in `s`, or `none`. -/
def lastIdxOf (c : Char) (s : List Char) : Option Nat :=
  match List.findIdx? (fun x => x = c) s.reverse with
  | none => none
  | some k => some (s.length - 1 - k)

/-- Fuel-driven worker for `splitOnChars`; fuel at least the length of the
input makes the fuel-exhausted arm unreachable. -/
def splitChunk (sep : List Char) : Nat → List Char → List (List Char)
  | _, [] => [[]]
  | 0, s => [s]
  | fuel + 1, c :: rest =>
    if sep.isPrefixOf (c :: rest) then
      [] :: splitChunk sep fuel ((c :: rest).drop sep.length)
    else
      match splitChunk sep fuel rest with
      | [] => [[c]]
      | chunk :: more => (c :: chunk) :: more

/-- `bytes.Split` for a non-empty separator: the chunks of `s` around each
leftmost non-overlapping occurrence of `sep`. -/
def splitOnChars (sep s : List Char) : List (List Char) :=
  splitChunk sep s.length s

/-- Whitespace as `bytes.TrimSpace` sees it (ASCII blanks suffice here). -/
def isSpaceChar (c : Char) : Bool :=
  c = ' ' || c = '\t' || c = '\n' || c = '\r'

/-- `bytes.TrimSpace`: strips leading and trailing whitespace. -/
def trimChars (s : List Char) : List Char :=
  ((s.dropWhile isSpaceChar).reverse.dropWhile isSpaceChar).reverse

/-- The marker token of a reference tag. -/
def markerChars : List Char := "noifgo:".toList

/-- The loop of `shouldConvertTo` that finds the line before `row`:
`prevLine` is updated to the current line while `curRow ≠ row` and the
loop stops at `curRow = row`; a nil slice (here `""`) remains when `row`
is 1, and the file's last line remains when `row` exceeds the line
count. -/
def prevLineOf (row : Nat) : List String → Nat → String → String
  | [], _, prev => prev
  | l :: rest, curRow, prev =>
    if curRow ≠ row then prevLineOf row rest (curRow + 1) l
    else prev

/-- The key-value loop of `shouldConvertTo` (src/main.go:383-398): each
semicolon-separated part is trimmed and split on `,`; a part that does not
split in exactly two is an immediate error; the part whose key equals
`ifName` yields `"p"`, `"v"`, or an error; if no part matches, the final
not-found error is returned. -/
def scanPairs (ifName : List Char) : List (List Char) → ConvRes
  | [] => .errMsg "noifgo tag malformed: could not find interface"
  | kv :: rest =>
    match splitOnChars [','] (trimChars kv) with
    | [k, v] =>
      if k = ifName then
        if v = ['p'] then .ok "p"
        else if v = ['v'] then .ok "v"
        else .errMsg "noifgo tag malformed: value in key value pair must either be 'p' or 'v'"
      else scanPairs ifName rest
    | _ => .errMsg "noifgo tag malfored: could not find key value pair, missing ','"

/-- `shouldConvertTo` (src/main.go:349-400): reads the line before `row`,
splits it on the marker `"noifgo:"`, requires exactly two parts, then
reads the first byte of the second part (`prevLineParts[1][0]` in the
source) — when that part is empty this is an index-out-of-range panic,
modelled as `.panicked`.  Otherwise it requires the brace-delimited list
and scans the key-value pairs. -/
def shouldConvertTo (f : List String) (row : Nat) (ifName : String) : ConvRes :=
  let prevLine := (prevLineOf row f 1 "").toList
  match splitOnChars markerChars prevLine with
  | [_, p1] =>
    match p1 with
    | [] => .panicked
    | c :: _ =>
      if c ≠ curlyOpen then
        .errMsg "noifgo tag malformed: 'noifgo:' should be followed by a '\x7b'"
      else
        match lastIdxOf curlyClose p1 with
        | none => .errMsg "noifgo tag malformed: could not find closing '\x7d'"
        | some cix =>
          scanPairs ifName.toList (splitOnChars [';'] ((p1.drop 1).take (cix - 1)))
  | _ => .errMsg "could not split line containing noifgo tag in two parts"

lemma scanPairs_ne_panicked (ifName : List Char) :
    ∀ kvs : List (List Char), scanPairs ifName kvs ≠ .panicked := by
  intro kvs
  induction kvs with
  | nil => simp [scanPairs]
  | cons kv rest ih =>
    unfold scanPairs
    cases h : splitOnChars [','] (trimChars kv) with
    | nil => simp
    | cons k tl =>
      cases tl with
      | nil => simp
      | cons v tl2 =>
        cases tl2 with
        | nil =>
          by_cases hk : k = ifName
          · by_cases hp : v = ['p']
            · simp [hk, hp]
            · by_cases hv : v = ['v']
              · simp [hk, hp, hv]
              · simp [hk, hp, hv]
          · simpa [hk] using ih
        | cons => simp

/-- C10: the reference-tag parser panics exactly when the line above the
reference splits on the marker `"noifgo:"` into exactly two parts whose
second part is empty — i.e. the line ends with the marker and nothing
follows it (the source then indexes `prevLineParts[1][0]` out of range);
on every other input it returns a value (`ok` or a Go error).  The second
conjunct exhibits a concrete such line. -/
theorem C10_shouldConvertTo_panic :
    (∀ (f : List String) (row : Nat) (ifName : String),
      shouldConvertTo f row ifName = .panicked ↔
        ∃ a, splitOnChars markerChars (prevLineOf row f 1 "").toList = [a, []]) ∧
    shouldConvertTo ["x", "// noifgo:", "var s Singer"] 3 "Singer" = .panicked := by
  constructor
  · intro f row ifName
    simp only [shouldConvertTo]
    cases hs : splitOnChars markerChars (prevLineOf row f 1 "").toList with
    | nil => simp
    | cons x xs =>
      cases xs with
      | nil => simp
      | cons p1 ys =>
        cases ys with
        | nil =>
          cases p1 with
          | nil => simp
          | cons c cs =>
            by_cases hc : c = curlyOpen
            · subst hc
              simp only [ne_eq, not_true_eq_false, if_false, ite_false]
              cases hl : lastIdxOf curlyClose (curlyOpen :: cs) with
              | none => simp [hl]
              | some cix => simp [hl, scanPairs_ne_panicked]
            · simp [hc]
        | cons => simp
  · rfl

/-! ## Substitution planner (src/main.go:243-257, 404-414) -/

/-- A file path, as the list of its directory components plus the file's
base name.  `src/main.go` inspects paths only through `filepath.Dir`
(the containing directory) and `filepath.Base` (the last component), so
this component view carries exactly what the code uses. -/
structure GoPath where
  dirs : List String
  base : String
deriving DecidableEq, Repr

/-- `filepath.Dir`. -/
def dirOf (p : GoPath) : List String := p.dirs

/-- `referencesInSamePkg` (src/main.go:404-408): two files belong to the
same package iff their containing directories are equal. -/
def referencesInSamePkg (a b : GoPath) : Bool := dirOf a = dirOf b

/-- `pkgFromFilepath` (src/main.go:411-414): the package name of a file is
the base name of its containing directory. -/
def pkgFromFilepath (p : GoPath) : String := (dirOf p).getLastD ""

/-- The constant `implPrefix` (src/main.go:23). -/
def implPrefix : String := "NoIFGo"

/-- The pointer sigil chosen from the parsed kind (src/main.go:243-248). -/
def typePrefixOf (convertTo : String) : String :=
  if convertTo = "p" then "*" else ""

/-- The package qualifier chosen for a reference (src/main.go:251-256). -/
def pkgPrefixOf (refFp implFp : GoPath) : String :=
  if referencesInSamePkg refFp implFp then "" else pkgFromFilepath implFp ++ "."

/-- The replacement text the driver passes to `renameRefSingle`
(src/main.go:257): `typePrefix + pkgPrefix + implPrefix + impl.name`. -/
def plannedNewText (convertTo : String) (refFp implFp : GoPath)
    (implName : String) : String :=
  typePrefixOf convertTo ++ pkgPrefixOf refFp implFp ++ implPrefix ++ implName

/-- C6: the replacement text is typePrefix + packagePrefix + "NoIFGo" +
implementation name; typePrefix is `"*"` exactly for kind `"p"` and empty
for kind `"v"`; packagePrefix is empty exactly when the reference's file
and the implementation's file share their containing directory, and
otherwise is the base name of the implementation file's directory followed
by a dot. -/
theorem C6_replacement_text (convertTo : String) (refFp implFp : GoPath)
    (implName : String) :
    plannedNewText convertTo refFp implFp implName
        = typePrefixOf convertTo ++ pkgPrefixOf refFp implFp ++ "NoIFGo" ++ implName
      ∧ (typePrefixOf convertTo = "*" ↔ convertTo = "p")
      ∧ (convertTo = "v" → typePrefixOf convertTo = "")
      ∧ (pkgPrefixOf refFp implFp = "" ↔ dirOf refFp = dirOf implFp)
      ∧ (dirOf refFp ≠ dirOf implFp →
          pkgPrefixOf refFp implFp = pkgFromFilepath implFp ++ ".") := by
  refine ⟨rfl, ?_, ?_, ?_, ?_⟩
  · constructor
    · intro h
      by_contra hne
      simp [typePrefixOf, hne] at h
    · intro h; simp [typePrefixOf, h]
  · intro h
    simp [typePrefixOf, h]
  · constructor
    · intro h
      by_contra hne
      have hb : referencesInSamePkg refFp implFp = false := by
        simp [referencesInSamePkg, hne]
      rw [pkgPrefixOf, hb] at h
      simp at h
      have hlen := congrArg String.length h
      rw [String.length_append] at hlen
      have hd : ".".length = 1 := by decide
      have he : "".length = 0 := by decide
      omega
    · intro h
      have hb : referencesInSamePkg refFp implFp = true := by
        simp [referencesInSamePkg, h]
      simp [pkgPrefixOf, hb]
  · intro h
    have hb : referencesInSamePkg refFp implFp = false := by
      simp [referencesInSamePkg, h]
    simp [pkgPrefixOf, hb]

/-! ## Edit applier: `renameRefSingle` (src/main.go:481-543) -/

/-- The byte-splice of `renameRefSingle` (src/main.go:502-519), written by
index exactly as the source's three copy loops write `newb`: a buffer of
`len(b) + len(to) - len(from)` bytes whose k-th byte comes from `b` below
`pos`, from `to` between `pos` and `pos + len(to)`, and from the tail
`b[pos+len(from):]` above. -/
def spliceIdx (b : List Char) (pos fromLen : Nat) (toText : List Char) : List Char :=
  (List.range (b.length + toText.length - fromLen)).map fun k =>
    if k < pos then b.getD k ' '
    else if k < pos + toText.length then toText.getD (k - pos) ' '
    else b.getD (k - toText.length + fromLen) ' '

/-- `renameRefSingle` (src/main.go:481-543) on the file's byte content:
when the reference and the interface are in different packages the
position is shifted left by `1 + len(ifPkgName)` and the old text becomes
the package-qualified interface name, then the splice replaces
`len(from)` bytes at the (possibly shifted) position with `to`. -/
def renameRefSingle (b : List Char) (fromName toName : String) (pos : Nat)
    (refAndIfInSamePkg : Bool) (ifPkgName : String) : List Char :=
  let p := if refAndIfInSamePkg then pos else pos - 1 - ifPkgName.length
  let f := if refAndIfInSamePkg then fromName
           else ifPkgName ++ "." ++ fromName
  spliceIdx b p f.length toName.toList

lemma spliceIdx_eq_take_drop (b : List Char) (p fLen : Nat) (t : List Char)
    (h : p + fLen ≤ b.length) :
    spliceIdx b p fLen t = b.take p ++ t ++ b.drop (p + fLen) := by
  have hp : p ≤ b.length := by omega
  have hlt : (b.take p).length = p := by simp [hp]
  apply List.ext_getElem
  · simp [spliceIdx]
    omega
  · intro i h1 h2
    have h1' : i < b.length + t.length - fLen := by
      simpa [spliceIdx] using h1
    simp only [spliceIdx, List.getElem_map, List.getElem_range]
    have hlt2 : (b.take p ++ t).length = p + t.length := by
      simp [List.length_append, hlt]
    by_cases hip : i < p
    · rw [if_pos hip]
      rw [List.getElem_append_left (by rw [hlt2]; omega)]
      rw [List.getElem_append_left (by rw [hlt]; exact hip)]
      rw [List.getElem_take, List.getD_eq_getElem _ _ (by omega)]
    · rw [if_neg hip]
      by_cases hit : i < p + t.length
      · rw [if_pos hit]
        rw [List.getElem_append_left (by rw [hlt2]; exact hit)]
        rw [List.getElem_append_right (by rw [hlt]; omega)]
        simp only [hlt]
        rw [List.getD_eq_getElem _ _ (by omega)]
      · rw [if_neg hit]
        rw [List.getElem_append_right (by rw [hlt2]; omega)]
        simp only [hlt2]
        rw [List.getElem_drop]
        have hidx : i - t.length + fLen = p + fLen + (i - (p + t.length)) := by
          omega
        have hb2 : p + fLen + (i - (p + t.length)) < b.length := by omega
        rw [← List.getD_eq_getElem b ' ' hb2, hidx]

/-- C7: for a reference in a different package than the tagged interface's
file (`refAndIfInSamePkg = false`), the old text replaced is the
package-qualified interface name `ifPkgName ++ "." ++ fromName` and the
byte offset used is the computed offset shifted left by exactly
`1 + len(ifPkgName)`; for a reference in the same package the bare
interface name is replaced at the unshifted offset. -/
theorem C7_renameRefSingle_qualified (b : List Char) (fromName toName : String)
    (pos : Nat) (ifPkgName : String)
    (_hpos : 1 + ifPkgName.length ≤ pos)
    (hdiff : pos - (1 + ifPkgName.length)
        + (ifPkgName ++ "." ++ fromName).length ≤ b.length)
    (hsame : pos + fromName.length ≤ b.length) :
    renameRefSingle b fromName toName pos false ifPkgName
        = b.take (pos - (1 + ifPkgName.length)) ++ toName.toList
            ++ b.drop (pos - (1 + ifPkgName.length)
                + (ifPkgName ++ "." ++ fromName).length)
      ∧ renameRefSingle b fromName toName pos true ifPkgName
        = b.take pos ++ toName.toList ++ b.drop (pos + fromName.length) := by
  have hshift : pos - 1 - ifPkgName.length = pos - (1 + ifPkgName.length) := by
    omega
  constructor
  · simp only [renameRefSingle, Bool.false_eq_true, ite_false, if_false, hshift]
    exact spliceIdx_eq_take_drop b _ _ _ hdiff
  · simp only [renameRefSingle, ite_true, if_true]
    exact spliceIdx_eq_take_drop b _ _ _ hsame

/-- Witness for C7 on the concrete file content `"p.If x"`: the reference
position 2 (the bare name `If`), interface package `p`.  In the
cross-package case the qualified name `p.If` at offset 0 is replaced; in
the same-package case the bare `If` at offset 2 is replaced. -/
theorem C7_renameRefSingle_qualified_witness :
    renameRefSingle "p.If x".toList "If" "*NoIFGoImpl" 2 false "p"
        = "*NoIFGoImpl x".toList
      ∧ renameRefSingle "p.If x".toList "If" "*NoIFGoImpl" 2 true "p"
        = "p.*NoIFGoImpl x".toList := by
  have h := C7_renameRefSingle_qualified "p.If x".toList "If" "*NoIFGoImpl" 2 "p"
    (by decide) (by decide) (by decide)
  exact ⟨by rw [h.1]; rfl, by rw [h.2]; rfl⟩

/-! ## Driver rewrite loop: same-row offset growth (src/main.go:226-263) -/

/-- A resolver-reported reference site. -/
structure Reference where
  filepath : GoPath
  row : Nat
  col : Nat
deriving DecidableEq, Repr

/-- The loop state of the driver's interface-reference rewrite loop:
`lastRefFilepath`, `lastRefRow` and `lastRowGrowth`
(src/main.go:226-228), zero-initialised as in Go. -/
structure GrowthSt where
  lastRefFilepath : GoPath
  lastRefRow : Nat
  lastRowGrowth : Nat
deriving DecidableEq, Repr

/-- The effective column the driver uses for a reference
(src/main.go:230-232): the resolver-reported column plus
`lastRowGrowth` when the previous reference was in the same file and on
the same row, the reported column otherwise. -/
def effColOf (st : GrowthSt) (r : Reference) : Nat :=
  if st.lastRefFilepath = r.filepath ∧ st.lastRefRow = r.row then
    r.col + st.lastRowGrowth
  else r.col

/-- The growth bookkeeping written after each rewrite
(src/main.go:260-262): `lastRowGrowth = len(typePrefix) + 9`, a hardcoded
constant independent of the actual texts. -/
def stepRef (r : Reference) (convertTo : String) : GrowthSt :=
  ⟨r.filepath, r.row, (typePrefixOf convertTo).length + 9⟩

/-- The effective columns the driver's loop uses for a list of references
(each paired with its parsed kind), in loop order. -/
def effColsLoop : GrowthSt → List (Reference × String) → List (Reference × Nat)
  | _, [] => []
  | st, (r, k) :: rest => (r, effColOf st r) :: effColsLoop (stepRef r k) rest

/-- `effColsLoop` from the zero-initialised state, as in `main`. -/
def effCols (refs : List (Reference × String)) : List (Reference × Nat) :=
  effColsLoop ⟨⟨[], ""⟩, 0, 0⟩ refs

/-- The true byte-length delta of one rewrite: the length of the new text
passed to `renameRefSingle` minus the length of the old text it replaces
(the bare interface name, or the package-qualified one when the reference
and the interface are in different packages). -/
def actualDelta (k : String) (refFp ifFp implFp : GoPath)
    (ifName implName : String) : Int :=
  ((plannedNewText k refFp implFp implName).length : Int)
    - ((if referencesInSamePkg refFp ifFp then ifName
        else pkgFromFilepath ifFp ++ "." ++ ifName).length : Int)

/-- C3 (code bug): on the spec's own example — two value-kind references
on one row at columns 10 and 30, everything in one package, interface
`Reader` rewritten to `NoIFGoreader` (6 bytes longer) — the driver shifts
the second reference's column by the hardcoded `len(typePrefix) + 9 = 9`,
giving effective column 39, while the actual byte-length delta of the
prior edit is 6, so the column the claim requires is 36. -/
theorem C3_offset_growth_uses_hardcoded_nine :
    effCols [(⟨⟨["proj"], "a.go"⟩, 5, 10⟩, "v"), (⟨⟨["proj"], "a.go"⟩, 5, 30⟩, "v")]
        = [(⟨⟨["proj"], "a.go"⟩, 5, 10⟩, 10), (⟨⟨["proj"], "a.go"⟩, 5, 30⟩, 39)]
      ∧ actualDelta "v" ⟨["proj"], "a.go"⟩ ⟨["proj"], "a.go"⟩ ⟨["proj"], "a.go"⟩
          "Reader" "reader" = 6
      ∧ (39 : Nat) ≠ 30 + 6 := by
  refine ⟨?_, ?_, by decide⟩
  · rfl
  · decide

/-! ## Restore loop at the end of `main` (src/main.go:281-296) -/

/-- What happens to one tracked file during restoration. -/
inductive RestoreEv
  | restored (fp : GoPath)
  | missingBackup (fp : GoPath)
  | removeFailed (fp : GoPath)
  | renameFailed (fp : GoPath)
deriving DecidableEq, Repr

/-- One tracked file together with the filesystem behaviour the restore
loop meets: whether its sibling backup exists, and whether the
`os.Remove` of the original and the `os.Rename` of the backup succeed. -/
structure RestoreFs where
  filepath : GoPath
  backupExists : Bool
  removeOk : Bool
  renameOk : Bool
deriving DecidableEq, Repr

/-- The restore loop at the end of `main` (src/main.go:281-296), as the
sequence of per-file outcomes: a missing backup is reported
(`missingBackup`) and the loop continues with the remaining files; a
failed `os.Remove` or `os.Rename` is reported and `main` returns, so the
event list stops there and no later file is touched. -/
def restoreLoop : List RestoreFs → List RestoreEv
  | [] => []
  | f :: rest =>
    if f.backupExists = false then .missingBackup f.filepath :: restoreLoop rest
    else if f.removeOk = false then [.removeFailed f.filepath]
    else if f.renameOk = false then [.renameFailed f.filepath]
    else .restored f.filepath :: restoreLoop rest

/-- C2 counterexample: with two tracked files where deleting the first
file's rewritten original fails, `main` returns immediately: the second
file is never restored, contradicting the claim that remaining files are
still restored after an I/O error. -/
theorem C2_restore_counterexample :
    restoreLoop [⟨⟨["d"], "a.go"⟩, true, false, true⟩,
                 ⟨⟨["d"], "b.go"⟩, true, true, true⟩]
        = [.removeFailed ⟨["d"], "a.go"⟩]
      ∧ RestoreEv.restored ⟨["d"], "b.go"⟩ ∉
          restoreLoop [⟨⟨["d"], "a.go"⟩, true, false, true⟩,
                       ⟨⟨["d"], "b.go"⟩, true, true, true⟩] := by
  decide

/-- C2 amended: a missing sibling backup is reported and restoration
continues with the remaining files; but an I/O error while restoring one
file (the `os.Remove` of the rewritten original or the `os.Rename` of
the backup) makes `main` return at once, so the remaining files are not
restored. -/
theorem C2_restore_missing_continues_error_stops (fp : GoPath)
    (rOk nOk : Bool) (rest : List RestoreFs) :
    restoreLoop (⟨fp, false, rOk, nOk⟩ :: rest)
        = .missingBackup fp :: restoreLoop rest
      ∧ restoreLoop (⟨fp, true, false, nOk⟩ :: rest) = [.removeFailed fp]
      ∧ restoreLoop (⟨fp, true, true, false⟩ :: rest) = [.renameFailed fp]
      ∧ restoreLoop (⟨fp, true, true, true⟩ :: rest)
        = .restored fp :: restoreLoop rest := by
  refine ⟨rfl, rfl, rfl, rfl⟩

/-! ## `implByIf`: parsing guru's `implements` output (src/main.go:547-649) -/

/-- `bytes.Contains`: does `needle` occur as a contiguous run of `hay`? -/
def containsSub (needle hay : List Char) : Bool :=
  (List.range (hay.length + 1)).any fun i => needle.isPrefixOf (hay.drop i)

/-- The test-file marker the scanning loops skip. -/
def testGoChars : List Char := "_test.go".toList

/-- The value of a non-empty all-digit run, or `none`. -/
def digitsVal : List Char → Option Nat
  | [] => none
  | ds =>
    if ds.all (fun c => c.isDigit) then
      some (ds.foldl (fun n c => n * 10 + (c.toNat - 48)) 0)
    else none

/-- `strconv.Atoi`: an optional sign followed by digits. -/
def atoiChars : List Char → Option Int
  | '+' :: ds => (digitsVal ds).map Int.ofNat
  | '-' :: ds => (digitsVal ds).map fun n => -(n : Int)
  | ds => (digitsVal ds).map Int.ofNat

/-- `filepath.Base`: the last component of a path (trailing slashes
stripped; `"."` for an empty path, `"/"` for all-slashes). -/
def baseChars (s : List Char) : List Char :=
  if s = [] then ['.']
  else
    let stripped := (s.reverse.dropWhile (fun c => c = '/')).reverse
    if stripped = [] then ['/']
    else (stripped.reverse.takeWhile (fun c => decide (c ≠ '/'))).reverse

/-- An interface implementation as `implByIf` builds it (the Go struct
`ifImplementation`, zero value `⟨[], [], 0, 0⟩`). -/
structure IfImplementation where
  filepath : List Char
  name : List Char
  row : Int
  col : Int
deriving DecidableEq, Repr

/-- The zero value `var impl ifImplementation` (src/main.go:575). -/
def zeroImpl : IfImplementation := ⟨[], [], 0, 0⟩

/-- One line's parse inside the `implByIf` loop (src/main.go:586-638),
with Go's progressive assignment: the line is split on `":"` into exactly
three parts (else the line is skipped with `impl` unchanged); then `impl`
is replaced by a fresh struct holding the filepath, and row, col and name
are assigned step by step, each failing step skipping the line but keeping
the assignments made so far.  Returns the resulting `impl` and whether the
line parsed completely (`found` is set). -/
def parseImplStep (line : List Char) (impl : IfImplementation) :
    IfImplementation × Bool :=
  match splitOnChars [':'] line with
  | [fp, rowcol, descr] =>
    let impl1 : IfImplementation := ⟨fp, [], 0, 0⟩
    match splitOnChars ['-'] rowcol with
    | [startRC, _] =>
      match splitOnChars ['.'] startRC with
      | [rowS, colS] =>
        match atoiChars rowS with
        | none => (impl1, false)
        | some r =>
          let impl2 := { impl1 with row := r }
          match atoiChars colS with
          | none => (impl2, false)
          | some c =>
            let impl3 := { impl2 with col := c }
            match lastIdxOf ' ' descr with
            | none => (impl3, false)
            | some ix =>
              let dirty := baseChars (descr.drop (ix + 1))
              let nm :=
                match splitOnChars ['.'] dirty with
                | [only] => only
                | _ :: second :: _ => second
                | [] => []
              ({ impl3 with name := nm }, true)
      | _ => (impl1, false)
    | _ => (impl1, false)
  | _ => (impl, false)

/-- The scanning loop of `implByIf` over the output lines after the
skipped header line (src/main.go:574-648): a line containing `_test.go`
is skipped; once an implementation has been found, any further non-test
line makes the whole call fail with `"Too many interface
implementations"`; otherwise the line is parsed, a complete parse setting
`found`.  When the lines run out, the accumulated `impl` is returned with
a nil error — even when nothing was ever found. -/
def implByIfLoop : List (List Char) → Bool → IfImplementation →
    Except String IfImplementation
  | [], _, impl => .ok impl
  | line :: rest, found, impl =>
    if containsSub testGoChars line then implByIfLoop rest found impl
    else if found then .error "Too many interface implementations"
    else
      match parseImplStep line impl with
      | (impl2, true) => implByIfLoop rest true impl2
      | (impl2, false) => implByIfLoop rest found impl2

/-- `implByIf` (src/main.go:547-649) on the guru output lines that follow
the header line. -/
def implByIf (outputLines : List (List Char)) : Except String IfImplementation :=
  implByIfLoop outputLines false zeroImpl

lemma implByIfLoop_found (lines : List (List Char)) :
    ∀ impl : IfImplementation,
    implByIfLoop lines true impl
      = if lines.any (fun l => ! containsSub testGoChars l) then
          .error "Too many interface implementations"
        else .ok impl := by
  induction lines with
  | nil => intro impl; simp [implByIfLoop]
  | cons line rest ih =>
    intro impl
    by_cases ht : containsSub testGoChars line = true
    · simp [implByIfLoop, ht, ih]
    · simp only [Bool.not_eq_true] at ht
      simp [implByIfLoop, ht]

/-- C8 counterexample: with no implementation lines at all (zero non-test
implementing types), `implByIf` returns the zero-valued implementation
with a nil error instead of failing with a no-implementation error. -/
theorem C8_no_impl_returns_ok_counterexample :
    implByIf [] = .ok zeroImpl := by
  rfl

/-- C8 amended: after one non-test line parses as an implementation, the
call fails with `"Too many interface implementations"` exactly when a
further non-test line follows (more than one non-test implementing
type), and returns that single implementation with no error when none
does; when no implementation is found the call does not fail (see the
counterexample), there being no no-implementation error in the code. -/
theorem C8_single_or_too_many (line : List Char) (rest : List (List Char))
    (i : IfImplementation)
    (htest : containsSub testGoChars line = false)
    (hparse : parseImplStep line zeroImpl = (i, true)) :
    implByIf (line :: rest)
      = if rest.any (fun l => ! containsSub testGoChars l) then
          .error "Too many interface implementations"
        else .ok i := by
  simp only [implByIf, implByIfLoop, htest, if_false, Bool.false_eq_true,
    ite_false, hparse]
  exact implByIfLoop_found rest i

/-- Witness for the amended C8 at a concrete guru output line: one
implementation line and nothing after it parses to `Lol` at 14.6 with no
error. -/
theorem C8_single_or_too_many_witness :
    implByIf ["/a/b/if.go:14.6-14.8: is implemented by struct type Lol".toList]
      = .ok ⟨"/a/b/if.go".toList, "Lol".toList, 14, 6⟩ := by
  have h := C8_single_or_too_many
    "/a/b/if.go:14.6-14.8: is implemented by struct type Lol".toList []
    ⟨"/a/b/if.go".toList, "Lol".toList, 14, 6⟩ (by decide) (by decide)
  simpa using h

/-! ## Tag scanner: `nextInterfaceToProcess` (src/main.go:812-903) -/

/-- The devirtualization marker (src/main.go:84). -/
def tagChars : List Char := "noifgo:ifdef".toList

/-- A tagged interface as the scanner builds it (the Go struct
`taggedInterface`). -/
structure TaggedInterface where
  filepath : GoPath
  name : List Char
  row : Nat
  col : Nat
deriving DecidableEq, Repr

/-- The interface-declaration check applied to the line after a tag line
(src/main.go:851-878): the line starts with `type` and a space, an
identifier begins at the first non-space from index 5 and must be ended
by a space on the line, and `interface` must occur from that space
onward.  Returns the identifier, or `none` when any condition fails. -/
def ifDeclName (sb : List Char) : Option (List Char) :=
  if sb.take 5 = "type ".toList then
    let rest := sb.drop 5
    let sRel := rest.findIdx fun c => c != ' '
    if sRel < rest.length then
      let afterName := rest.drop sRel
      let eRel := afterName.findIdx fun c => c == ' '
      if eRel < afterName.length then
        if containsSub "interface".toList (afterName.drop eRel) then
          some (afterName.take eRel)
        else none
      else none
    else none
  else none

/-- The per-file line scan of `nextInterfaceToProcess`
(src/main.go:839-899): a line containing the tag sets `found`; the next
line must then parse as an interface declaration whose (filepath, name)
pair is not in `processedInterfaces`, in which case this file's scan
stops with that tagged interface (col fixed at 6, row the declaration's
1-based line number); on any failure scanning continues with `found`
reset. -/
def scanFileLines (path : GoPath) (processed : List TaggedInterface) :
    List (List Char) → Nat → Bool → Option TaggedInterface
  | [], _, _ => none
  | sb :: rest, row, found =>
    if containsSub tagChars sb then
      scanFileLines path processed rest (row + 1) true
    else if found = false then
      scanFileLines path processed rest (row + 1) false
    else
      match ifDeclName sb with
      | none => scanFileLines path processed rest (row + 1) false
      | some nm =>
        if processed.any fun pi => decide (pi.name = nm ∧ pi.filepath = path) then
          scanFileLines path processed rest (row + 1) false
        else some ⟨path, nm, row + 1, 6⟩

/-- The `filepath.Walk` of `nextInterfaceToProcess` (src/main.go:814-901):
the callback is run for every file of the tree in order; a file whose
scan finds an unprocessed tagged interface overwrites `taggedIf` and
appends it to `processedInterfaces`, and the walk then continues with the
remaining files — so one call can consume one tagged interface from every
file that still has one, returning only the last of them. -/
def nextInterfaceWalk : List (GoPath × List (List Char)) →
    Option TaggedInterface × List TaggedInterface →
    Option TaggedInterface × List TaggedInterface
  | [], acc => acc
  | (path, lines) :: restFiles, (res, processed) =>
    match scanFileLines path processed lines 0 false with
    | none => nextInterfaceWalk restFiles (res, processed)
    | some t => nextInterfaceWalk restFiles (some t, processed ++ [t])

/-- `nextInterfaceToProcess` (src/main.go:812-903): one driver call,
returning the tagged interface found last (or `none`) and the grown
processed list. -/
def nextInterfaceToProcess (tree : List (GoPath × List (List Char)))
    (processed : List TaggedInterface) :
    Option TaggedInterface × List TaggedInterface :=
  nextInterfaceWalk tree (none, processed)

/-- The driver's repeated calls (src/main.go:149-157): call `n`
(0-based) runs on the processed list the previous call left. -/
def scanIter (tree : List (GoPath × List (List Char))) :
    Nat → Option TaggedInterface × List TaggedInterface
  | 0 => nextInterfaceToProcess tree []
  | n + 1 => nextInterfaceToProcess tree (scanIter tree n).2

/-- `t`'s (filepath, name) pair is in none of the processed entries. -/
def pairFresh (t : TaggedInterface) (processed : List TaggedInterface) : Prop :=
  ∀ pi ∈ processed, ¬(pi.name = t.name ∧ pi.filepath = t.filepath)

/-- The same scan as `scanFileLines` but collecting every tagged
interface declaration of the file, ignoring the processed list: the
marked interfaces the file truly contains. -/
def allTagsInFile (path : GoPath) :
    List (List Char) → Nat → Bool → List TaggedInterface
  | [], _, _ => []
  | sb :: rest, row, found =>
    if containsSub tagChars sb then allTagsInFile path rest (row + 1) true
    else if found = false then allTagsInFile path rest (row + 1) false
    else
      match ifDeclName sb with
      | none => allTagsInFile path rest (row + 1) false
      | some nm => ⟨path, nm, row + 1, 6⟩ :: allTagsInFile path rest (row + 1) false

/-- All marked interfaces of the tree, file by file. -/
def allTags (tree : List (GoPath × List (List Char))) : List TaggedInterface :=
  tree.flatMap fun f => allTagsInFile f.1 f.2 0 false

lemma scanFileLines_fresh (path : GoPath) (processed : List TaggedInterface) :
    ∀ (lines : List (List Char)) (row : Nat) (found : Bool)
      (t : TaggedInterface),
    scanFileLines path processed lines row found = some t → pairFresh t processed := by
  intro lines
  induction lines with
  | nil => intro row found t h; simp [scanFileLines] at h
  | cons sb rest ih =>
    intro row found t h
    rw [scanFileLines] at h
    by_cases htag : containsSub tagChars sb = true
    · rw [if_pos htag] at h
      exact ih _ _ _ h
    · rw [if_neg htag] at h
      by_cases hf : found = false
      · rw [if_pos hf] at h
        exact ih _ _ _ h
      · rw [if_neg hf] at h
        cases hd : ifDeclName sb with
        | none => rw [hd] at h; exact ih _ _ _ h
        | some nm =>
          simp only [hd] at h
          by_cases hany :
              (processed.any fun pi => decide (pi.name = nm ∧ pi.filepath = path))
                = true
          · rw [if_pos hany] at h
            exact ih _ _ _ h
          · rw [if_neg hany] at h
            injection h with h
            subst h
            intro pi hpi
            simp only [List.any_eq_true, decide_eq_true_eq] at hany
            intro hcon
            exact hany ⟨pi, hpi, hcon⟩

lemma pairFresh_of_append (t : TaggedInterface) (p q : List TaggedInterface)
    (h : pairFresh t (p ++ q)) : pairFresh t p := by
  intro pi hpi
  exact h pi (List.mem_append_left _ hpi)

lemma nextInterfaceWalk_spec :
    ∀ (files : List (GoPath × List (List Char)))
      (res : Option TaggedInterface) (processed : List TaggedInterface),
    (∀ x ∈ processed, x ∈ (nextInterfaceWalk files (res, processed)).2) ∧
    (∀ t, (nextInterfaceWalk files (res, processed)).1 = some t →
      res = some t ∨
        (pairFresh t processed ∧ t ∈ (nextInterfaceWalk files (res, processed)).2)) := by
  intro files
  induction files with
  | nil =>
    intro res processed
    refine ⟨fun x hx => hx, fun t ht => Or.inl ht⟩
  | cons f restFiles ih =>
    intro res processed
    obtain ⟨path, lines⟩ := f
    cases hscan : scanFileLines path processed lines 0 false with
    | none =>
      have hred : nextInterfaceWalk ((path, lines) :: restFiles) (res, processed)
          = nextInterfaceWalk restFiles (res, processed) := by
        rw [nextInterfaceWalk, hscan]
      rw [hred]
      exact ih res processed
    | some t0 =>
      have hred : nextInterfaceWalk ((path, lines) :: restFiles) (res, processed)
          = nextInterfaceWalk restFiles (some t0, processed ++ [t0]) := by
        rw [nextInterfaceWalk, hscan]
      rw [hred]
      obtain ⟨ihmem, ihres⟩ := ih (some t0) (processed ++ [t0])
      constructor
      · intro x hx
        exact ihmem x (List.mem_append_left _ hx)
      · intro t ht
        rcases ihres t ht with heq | ⟨hfresh, hmem⟩
        · right
          injection heq with heq
          subst heq
          refine ⟨scanFileLines_fresh path processed lines 0 false t0 hscan, ?_⟩
          exact ihmem t0 (List.mem_append_right _ (by simp))
        · right
          exact ⟨pairFresh_of_append t processed [t0] hfresh, hmem⟩

lemma nextInterfaceToProcess_spec (tree : List (GoPath × List (List Char)))
    (processed : List TaggedInterface) :
    (∀ x ∈ processed, x ∈ (nextInterfaceToProcess tree processed).2) ∧
    (∀ t, (nextInterfaceToProcess tree processed).1 = some t →
      pairFresh t processed ∧ t ∈ (nextInterfaceToProcess tree processed).2) := by
  obtain ⟨hmem, hres⟩ := nextInterfaceWalk_spec tree none processed
  refine ⟨hmem, fun t ht => ?_⟩
  rcases hres t ht with heq | hok
  · exact absurd heq (by simp)
  · exact hok

lemma scanIter_mem_mono (tree : List (GoPath × List (List Char))) :
    ∀ (m k : Nat), m ≤ k →
    ∀ x ∈ (scanIter tree m).2, x ∈ (scanIter tree k).2 := by
  intro m k hmk
  induction k with
  | zero =>
    intro x hx
    have : m = 0 := by omega
    subst this
    exact hx
  | succ k ihk =>
    intro x hx
    by_cases hm : m = k + 1
    · subst hm; exact hx
    · have hmk' : m ≤ k := by omega
      have hxk := ihk hmk' x hx
      have := (nextInterfaceToProcess_spec tree (scanIter tree k).2).1 x hxk
      simpa [scanIter] using this

/-- C9 counterexample: a tree with one tagged interface in each of two
files (two distinct (filepath, name) pairs).  The first call consumes
both pairs and returns only the second file's interface; the second call
already returns none — so the driver loop terminates after one
iteration, not after one call per distinct marked interface, and the
pair (a.go, A) is never returned. -/
theorem C9_scan_counterexample :
    (((allTags [(⟨["p"], "a.go"⟩,
          ["//noifgo:ifdef".toList, "type A interface \x7b".toList]),
        (⟨["p"], "b.go"⟩,
          ["//noifgo:ifdef".toList, "type B interface \x7b".toList])]).map
        fun t => (t.filepath, t.name)).dedup.length = 2)
      ∧ (scanIter [(⟨["p"], "a.go"⟩,
            ["//noifgo:ifdef".toList, "type A interface \x7b".toList]),
          (⟨["p"], "b.go"⟩,
            ["//noifgo:ifdef".toList, "type B interface \x7b".toList])] 0).1
          = some ⟨⟨["p"], "b.go"⟩, "B".toList, 2, 6⟩
      ∧ (scanIter [(⟨["p"], "a.go"⟩,
            ["//noifgo:ifdef".toList, "type A interface \x7b".toList]),
          (⟨["p"], "b.go"⟩,
            ["//noifgo:ifdef".toList, "type B interface \x7b".toList])] 1).1
          = none := by
  refine ⟨by decide, by decide, by decide⟩

/-- C9 amended: across repeated driver calls no (filepath, name) pair is
ever returned twice — every returned interface is fresh with respect to
the accumulated processed list, which only grows.  (A single call may
however consume the first unprocessed tagged interface of every file, so
the scanner can return none after fewer calls than there are distinct
marked interfaces; see the counterexample.) -/
theorem C9_no_pair_returned_twice (tree : List (GoPath × List (List Char)))
    (m n : Nat) (t t' : TaggedInterface)
    (hmn : m < n)
    (hm : (scanIter tree m).1 = some t)
    (hn : (scanIter tree n).1 = some t') :
    ¬(t.name = t'.name ∧ t.filepath = t'.filepath) := by
  obtain ⟨k, rfl⟩ : ∃ k, n = k + 1 := ⟨n - 1, by omega⟩
  have htm : t ∈ (scanIter tree m).2 := by
    cases m with
    | zero =>
      have h := (nextInterfaceToProcess_spec tree []).2 t
        (by simpa [scanIter] using hm)
      simpa [scanIter] using h.2
    | succ m' =>
      have h := (nextInterfaceToProcess_spec tree (scanIter tree m').2).2 t
        (by simpa [scanIter] using hm)
      simpa [scanIter] using h.2
  have htk : t ∈ (scanIter tree k).2 :=
    scanIter_mem_mono tree m k (by omega) t htm
  have hfresh : pairFresh t' (scanIter tree k).2 := by
    have := (nextInterfaceToProcess_spec tree (scanIter tree k).2).2 t' (by
      simpa [scanIter] using hn)
    exact this.1
  have := hfresh t htk
  intro hcon
  exact this hcon

/-- Witness for C9 on a one-file tree with two tagged interfaces: call 0
returns A, call 1 returns B, and the two (filepath, name) pairs differ. -/
theorem C9_no_pair_returned_twice_witness :
    (0 : Nat) < 1
      ∧ (scanIter [(⟨["p"], "c.go"⟩,
            ["//noifgo:ifdef".toList, "type A interface \x7b".toList,
             "//noifgo:ifdef".toList, "type B interface \x7b".toList])] 0).1
          = some ⟨⟨["p"], "c.go"⟩, "A".toList, 2, 6⟩
      ∧ (scanIter [(⟨["p"], "c.go"⟩,
            ["//noifgo:ifdef".toList, "type A interface \x7b".toList,
             "//noifgo:ifdef".toList, "type B interface \x7b".toList])] 1).1
          = some ⟨⟨["p"], "c.go"⟩, "B".toList, 4, 6⟩
      ∧ ¬(("A".toList : List Char) = "B".toList
            ∧ (⟨["p"], "c.go"⟩ : GoPath) = ⟨["p"], "c.go"⟩) :=
  ⟨by decide, by decide, by decide,
    C9_no_pair_returned_twice
      [(⟨["p"], "c.go"⟩,
          ["//noifgo:ifdef".toList, "type A interface \x7b".toList,
           "//noifgo:ifdef".toList, "type B interface \x7b".toList])]
      0 1 ⟨⟨["p"], "c.go"⟩, "A".toList, 2, 6⟩ ⟨⟨["p"], "c.go"⟩, "B".toList, 4, 6⟩
      (by decide) (by decide) (by decide)⟩

/-! ## Driver backup discipline (src/main.go:149-270) -/

/-- A filesystem event of the driver run: a file copied to its backup
path, or a file rewritten in place. -/
inductive Ev
  | backup (fp : GoPath)
  | write (fp : GoPath)
deriving DecidableEq, Repr

/-- `srcFilesToBackup.Add` (src/main.go:63-76): appends
`(filepath, backedUp := false)` unless an entry with the same filepath
already exists. -/
def addBackup (s : List (GoPath × Bool)) (fp : GoPath) : List (GoPath × Bool) :=
  if s.any fun e => decide (e.1 = fp) then s else s ++ [(fp, false)]

/-- The per-tag data the resolver hands the driver: the tagged
interface's file, the implementation's file, the files carrying
references to the implementation, and the files carrying references to
the interface. -/
structure TagFiles where
  ifFile : GoPath
  implFile : GoPath
  implRefFiles : List GoPath
  ifRefFiles : List GoPath

/-- The collection phase of one driver iteration (src/main.go:158-199):
`srcFilesToBackup.Add` for the interface file, the implementation file,
every implementation-reference file and every interface-reference
file. -/
def collectPhase (s : List (GoPath × Bool)) (tf : TagFiles) :
    List (GoPath × Bool) :=
  (tf.implRefFiles ++ tf.ifRefFiles).foldl addBackup
    (addBackup (addBackup s tf.ifFile) tf.implFile)

/-- The backup loop of one driver iteration (src/main.go:202-212): every
entry not yet backed up is copied to its backup path (a backup event) and
marked `backedUp = true`. -/
def backupPhase (s : List (GoPath × Bool)) :
    List Ev × List (GoPath × Bool) :=
  (((s.filter fun e => e.2 = false).map Prod.fst).map Ev.backup,
   s.map fun e => (e.1, true))

/-- The rewrites of one driver iteration (src/main.go:220-269):
`renameRefMany` rewrites the implementation's file and every file
referencing the implementation; then `renameRefSingle` rewrites each
interface-reference file; then `fixImports` rewrites each
interface-reference file again. -/
def writeEvents (tf : TagFiles) : List Ev :=
  (tf.implFile :: tf.implRefFiles ++ tf.ifRefFiles ++ tf.ifRefFiles).map Ev.write

/-- One driver iteration: collect, back up, then rewrite. -/
def tagStep (s : List (GoPath × Bool)) (tf : TagFiles) :
    List Ev × List (GoPath × Bool) :=
  ((backupPhase (collectPhase s tf)).1 ++ writeEvents tf,
   (backupPhase (collectPhase s tf)).2)

/-- The event trace of the whole run from a given backup-list state. -/
def runEvents : List (GoPath × Bool) → List TagFiles → List Ev
  | _, [] => []
  | s, tf :: rest => (tagStep s tf).1 ++ runEvents (tagStep s tf).2 rest

/-- The event trace of the whole run (`srcFilesToBackup` starts empty). -/
def driverRun (tags : List TagFiles) : List Ev := runEvents [] tags

/-- All files collected for one tag. -/
def tagAllFiles (tf : TagFiles) : List GoPath :=
  tf.ifFile :: tf.implFile :: (tf.implRefFiles ++ tf.ifRefFiles)

/-- Checks a trace: every write must hit a file backed up earlier in the
trace (`done` holds the files backed up so far). -/
def backupBeforeWrite (done : List GoPath) : List Ev → Bool
  | [] => true
  | .backup fp :: tr => backupBeforeWrite (fp :: done) tr
  | .write fp :: tr => decide (fp ∈ done) && backupBeforeWrite done tr

/-- The backed-up set after a tag's backup loop runs from `done` on
backup-list state `s`: the not-yet-backed-up files are added. -/
def doneAfterBackups (done : List GoPath) (s : List (GoPath × Bool)) :
    List GoPath :=
  ((s.filter fun e => e.2 = false).map Prod.fst).reverse ++ done

lemma addBackup_mem (s : List (GoPath × Bool)) (fp : GoPath) :
    ∀ e ∈ addBackup s fp, e ∈ s ∨ e = (fp, false) := by
  intro e he
  unfold addBackup at he
  by_cases h : (s.any fun e => decide (e.1 = fp)) = true
  · rw [if_pos h] at he; exact Or.inl he
  · rw [if_neg h] at he
    rcases List.mem_append.1 he with h1 | h1
    · exact Or.inl h1
    · simp at h1; exact Or.inr h1

lemma addBackup_tracks (s : List (GoPath × Bool)) (fp : GoPath) :
    fp ∈ (addBackup s fp).map Prod.fst := by
  unfold addBackup
  by_cases h : (s.any fun e => decide (e.1 = fp)) = true
  · rw [if_pos h]
    simp only [List.any_eq_true, decide_eq_true_eq] at h
    obtain ⟨e, he, hfp⟩ := h
    exact List.mem_map.2 ⟨e, he, hfp⟩
  · rw [if_neg h]
    simp

lemma addBackup_tracks_mono (s : List (GoPath × Bool)) (fp g : GoPath)
    (h : fp ∈ s.map Prod.fst) : fp ∈ (addBackup s g).map Prod.fst := by
  unfold addBackup
  by_cases hc : (s.any fun e => decide (e.1 = g)) = true
  · rw [if_pos hc]; exact h
  · rw [if_neg hc]; simp only [List.map_append]; exact List.mem_append_left _ h

lemma foldl_addBackup_mem (fps : List GoPath) :
    ∀ (s : List (GoPath × Bool)) (e : GoPath × Bool),
    e ∈ fps.foldl addBackup s → e ∈ s ∨ e.2 = false := by
  induction fps with
  | nil => intro s e he; exact Or.inl he
  | cons g rest ih =>
    intro s e he
    rcases ih (addBackup s g) e he with h1 | h1
    · rcases addBackup_mem s g e h1 with h2 | h2
      · exact Or.inl h2
      · subst h2; exact Or.inr rfl
    · exact Or.inr h1

lemma foldl_addBackup_tracks_mono (fps : List GoPath) :
    ∀ (s : List (GoPath × Bool)) (fp : GoPath),
    fp ∈ s.map Prod.fst → fp ∈ (fps.foldl addBackup s).map Prod.fst := by
  induction fps with
  | nil => intro s fp h; exact h
  | cons g rest ih =>
    intro s fp h
    exact ih (addBackup s g) fp (addBackup_tracks_mono s fp g h)

lemma foldl_addBackup_tracks (fps : List GoPath) :
    ∀ (s : List (GoPath × Bool)) (fp : GoPath),
    fp ∈ fps → fp ∈ (fps.foldl addBackup s).map Prod.fst := by
  induction fps with
  | nil => intro s fp h; simp at h
  | cons g rest ih =>
    intro s fp h
    rcases List.mem_cons.1 h with h1 | h1
    · subst h1
      exact foldl_addBackup_tracks_mono rest (addBackup s fp) fp
        (addBackup_tracks s fp)
    · exact ih (addBackup s g) fp h1

lemma collectPhase_mem (s : List (GoPath × Bool)) (tf : TagFiles) :
    ∀ e ∈ collectPhase s tf, e ∈ s ∨ e.2 = false := by
  intro e he
  rcases foldl_addBackup_mem _ _ e he with h1 | h1
  · rcases addBackup_mem _ _ e h1 with h2 | h2
    · rcases addBackup_mem _ _ e h2 with h3 | h3
      · exact Or.inl h3
      · subst h3; exact Or.inr rfl
    · subst h2; exact Or.inr rfl
  · exact Or.inr h1

lemma collectPhase_tracks (s : List (GoPath × Bool)) (tf : TagFiles) :
    ∀ fp ∈ tagAllFiles tf, fp ∈ (collectPhase s tf).map Prod.fst := by
  intro fp hfp
  rcases List.mem_cons.1 hfp with h1 | h1
  · subst h1
    exact foldl_addBackup_tracks_mono _ _ _
      (addBackup_tracks_mono _ _ _ (addBackup_tracks s _))
  · rcases List.mem_cons.1 h1 with h2 | h2
    · subst h2
      exact foldl_addBackup_tracks_mono _ _ _ (addBackup_tracks _ _)
    · exact foldl_addBackup_tracks _ _ _ h2

lemma files_in_doneAfter (done : List GoPath) (s4 : List (GoPath × Bool))
    (hinv : ∀ e ∈ s4, e.2 = true → e.1 ∈ done) :
    ∀ fp ∈ s4.map Prod.fst, fp ∈ doneAfterBackups done s4 := by
  intro fp hfp
  obtain ⟨e, he, rfl⟩ := List.mem_map.1 hfp
  by_cases h2 : e.2 = true
  · exact List.mem_append_right _ (hinv e he h2)
  · refine List.mem_append_left _ ?_
    rw [List.mem_reverse]
    exact List.mem_map_of_mem _
      (List.mem_filter.2 ⟨he, by simp [Bool.not_eq_true] at h2 ⊢; exact h2⟩)

lemma collected_in_doneAfter (done : List GoPath) (s : List (GoPath × Bool))
    (tf : TagFiles) (hinv : ∀ e ∈ s, e.2 = true → e.1 ∈ done) :
    ∀ fp ∈ tagAllFiles tf, fp ∈ doneAfterBackups done (collectPhase s tf) := by
  intro fp hfp
  refine files_in_doneAfter done (collectPhase s tf) ?_ fp
    (collectPhase_tracks s tf fp hfp)
  intro e he h2
  rcases collectPhase_mem s tf e he with h1 | h1
  · exact hinv e h1 h2
  · rw [h1] at h2; exact absurd h2 (by simp)

lemma checker_backups (bs : List GoPath) :
    ∀ (done : List GoPath) (tr : List Ev),
    backupBeforeWrite done ((bs.map Ev.backup) ++ tr)
      = backupBeforeWrite (bs.reverse ++ done) tr := by
  induction bs with
  | nil => intro done tr; rfl
  | cons b rest ih =>
    intro done tr
    show backupBeforeWrite (b :: done) ((rest.map Ev.backup) ++ tr) = _
    rw [ih (b :: done) tr]
    congr 1
    simp

lemma checker_writes (ws : List GoPath) :
    ∀ (done : List GoPath) (tr : List Ev), (∀ fp ∈ ws, fp ∈ done) →
    backupBeforeWrite done ((ws.map Ev.write) ++ tr)
      = backupBeforeWrite done tr := by
  induction ws with
  | nil => intro done tr _; rfl
  | cons w rest ih =>
    intro done tr h
    show (decide (w ∈ done) && backupBeforeWrite done ((rest.map Ev.write) ++ tr))
        = _
    rw [ih done tr fun fp hfp => h fp (List.mem_cons_of_mem _ hfp)]
    simp [h w (List.mem_cons_self _ _)]

lemma runEvents_safe (tags : List TagFiles) :
    ∀ (s : List (GoPath × Bool)) (done : List GoPath),
    (∀ e ∈ s, e.2 = true → e.1 ∈ done) →
    backupBeforeWrite done (runEvents s tags) = true := by
  induction tags with
  | nil => intro s done _; rfl
  | cons tf rest ih =>
    intro s done hinv
    have hinv4 : ∀ e ∈ collectPhase s tf, e.2 = true → e.1 ∈ done := by
      intro e he h2
      rcases collectPhase_mem s tf e he with h1 | h1
      · exact hinv e h1 h2
      · rw [h1] at h2; exact absurd h2 (by simp)
    have hfiles := files_in_doneAfter done (collectPhase s tf) hinv4
    have hrun : runEvents s (tf :: rest)
        = (((collectPhase s tf).filter fun e => e.2 = false).map Prod.fst).map
            Ev.backup
          ++ (((tf.implFile :: tf.implRefFiles ++ tf.ifRefFiles
              ++ tf.ifRefFiles).map Ev.write)
            ++ runEvents ((collectPhase s tf).map fun e => (e.1, true)) rest) := by
      show (tagStep s tf).1 ++ runEvents (tagStep s tf).2 rest = _
      simp [tagStep, backupPhase, writeEvents, List.append_assoc]
    rw [hrun, checker_backups]
    rw [checker_writes]
    · apply ih
      intro e he _
      obtain ⟨e0, he0, rfl⟩ := List.mem_map.1 he
      exact hfiles e0.1 (List.mem_map_of_mem _ he0)
    · intro fp hfp
      apply hfiles
      have hsub : fp ∈ tagAllFiles tf := by
        rcases List.mem_cons.1 hfp with h1 | h1
        · subst h1; exact List.mem_cons_of_mem _ (List.mem_cons_self _ _)
        · refine List.mem_cons_of_mem _ (List.mem_cons_of_mem _ ?_)
          rcases List.mem_append.1 h1 with h2 | h2
          · rcases List.mem_append.1 h2 with h3 | h3
            · exact List.mem_append_left _ h3
            · exact List.mem_append_right _ h3
          · exact List.mem_append_right _ h2
      exact collectPhase_tracks s tf fp hsub

/-- C1: (i) in the whole run's event trace, every file write is preceded
by a backup of that file; (ii) one tag's events are the backup loop's
events followed by the rewrites, so no rename or reference rewrite begins
before the tag's backup loop has finished; (iii) after the backup loop,
every file collected for the tag (interface file, implementation file,
every reference file) is backed up. -/
theorem C1_backup_before_first_write (tags : List TagFiles) :
    backupBeforeWrite [] (driverRun tags) = true
      ∧ (∀ (s : List (GoPath × Bool)) (tf : TagFiles),
          (tagStep s tf).1 = (backupPhase (collectPhase s tf)).1 ++ writeEvents tf)
      ∧ (∀ (done : List GoPath) (s : List (GoPath × Bool)) (tf : TagFiles),
          (∀ e ∈ s, e.2 = true → e.1 ∈ done) →
          ∀ fp ∈ tagAllFiles tf,
            fp ∈ doneAfterBackups done (collectPhase s tf)) := by
  refine ⟨runEvents_safe tags [] [] (by simp), fun s tf => rfl,
    collected_in_doneAfter⟩

end Noifgo
